import Mathlib

/-!
Verification development for the RAG pipeline repository.

The data types and operations below are shallow embeddings of the
TypeScript source (Angular front-end: services, components and model
interfaces).  JavaScript strings are embedded as `List Char`, JavaScript
numbers appearing in the claims as mathematical integers (`Int`) or
lengths (`Nat`); optional interface fields become `Option`.  The backend
cleanup engine is not part of the repository sources (the Backend
directory carries only a README), so it is modelled from the design
document where explicitly noted.
-/

namespace RagPipeline

/-- Whitespace test used by `String.prototype.trim` and friends,
restricted to the ASCII range that the development exercises:
space (code 32) and the control characters TAB..CR (codes 9..13). -/
def isWS (c : Char) : Bool := c.toNat = 32 || (9 ≤ c.toNat && c.toNat ≤ 13)

/-- The space character: the separator of `text.split(' ')` in
`ThreadFormatter.formatThread`. -/
def spaceChar : Char := Char.ofNat 32

/-- Embedding of `String.prototype.trim`: drop whitespace from both ends. -/
def trimJS (l : List Char) : List Char :=
  ((l.dropWhile isWS).reverse.dropWhile isWS).reverse

/-- Embedding of `text.split(' ')`: cut at every space character.
`splitOnSpace [] = [[]]`, matching JavaScript where `''.split(' ')`
is `['']`. -/
def splitOnSpace : List Char → List (List Char)
  | [] => [[]]
  | c :: rest =>
      if c = spaceChar then [] :: splitOnSpace rest
      else
        match splitOnSpace rest with
        | [] => [[c]]
        | w :: ws => (c :: w) :: ws

/-- Join a list of words with single spaces (the inverse reading of
`splitOnSpace`). -/
def joinSpace : List (List Char) → List Char
  | [] => []
  | [w] => w
  | w :: ws => w ++ spaceChar :: joinSpace ws

/-- Text contributed by appending the words `ws` to a non-empty join,
each word preceded by one separating space. -/
def sepJoin : List (List Char) → List Char
  | [] => []
  | w :: ws => spaceChar :: w ++ sepJoin ws

/-- Length of `sepJoin ws`: one separator plus the word length, summed
over `ws`. -/
def spaceLen (ws : List (List Char)) : Nat :=
  (ws.map (fun w => w.length + 1)).sum

/-- One iteration of the word loop of `ThreadFormatter.formatThread`
(thread-formatter.ts lines 30-37).  The accumulator is the pair
(tweets pushed so far, currentTweet).  The candidate
`(currentTweet + ' ' + word).trim()` either becomes the new
currentTweet (when it fits in `maxChars`), or the non-empty
currentTweet is pushed and the word starts a fresh tweet. -/
def stepTweet (maxChars : Nat) (acc : List (List Char) × List Char)
    (word : List Char) : List (List Char) × List Char :=
  if (trimJS (acc.2 ++ spaceChar :: word)).length ≤ maxChars then
    (acc.1, trimJS (acc.2 ++ spaceChar :: word))
  else ((if acc.2 = [] then acc.1 else acc.1 ++ [acc.2]), word)

/-- Embedding of `ThreadFormatter.formatThread` (thread-formatter.ts
lines 18-42) as a function of the input text and the `maxChars` field:
if the trimmed input is empty the chunk list is empty; otherwise the
text is split on spaces, the word loop runs, and a final non-empty
currentTweet is pushed. -/
def formatThread (input : List Char) (maxChars : Nat) : List (List Char) :=
  if trimJS input = [] then []
  else if ((splitOnSpace input).foldl (stepTweet maxChars) ([], [])).2 = [] then
    ((splitOnSpace input).foldl (stepTweet maxChars) ([], [])).1
  else
    ((splitOnSpace input).foldl (stepTweet maxChars) ([], [])).1 ++
      [((splitOnSpace input).foldl (stepTweet maxChars) ([], [])).2]

/-- A word as the chunker may split it: non-empty and entirely free of
whitespace. -/
def cleanWord (w : List Char) : Prop := w ≠ [] ∧ ∀ c ∈ w, isWS c = false

/-- Input texts that are single-space-separated sequences of clean
words: no leading, trailing or repeated spaces and no other whitespace. -/
def cleanText (l : List Char) : Prop :=
  l ≠ [] ∧ ∀ w ∈ splitOnSpace l, cleanWord w

/-- The head of a character list, when there is one, is not whitespace.
The empty list satisfies this vacuously. -/
def headOk (l : List Char) : Prop := ∀ c t, l = c :: t → isWS c = false

instance (w : List Char) : Decidable (cleanWord w) := by
  unfold cleanWord; infer_instance

instance (l : List Char) : Decidable (cleanText l) := by
  unfold cleanText; infer_instance

/-! ### Tweet endpoint exchange (tweet.model.ts / tweet.service.ts) -/

/-- Embedding of `TweetSource` (tweet.model.ts).  The relevance score
is a JS number; no claim computes with it, so it is modelled as `Int`. -/
structure TweetSource where
  filename : String
  relevance_score : Int
deriving DecidableEq

/-- Embedding of `PipelineStats` (tweet.model.ts). -/
structure PipelineStats where
  articles_fetched : Int
  articles_scraped : Int
  chunks_created : Int
  vectors_stored : Int
  search_results : Int
deriving DecidableEq

/-- Embedding of `TweetResponse` (tweet.model.ts): the interface marks
`pipeline_stats` and `error` with `?`, so both are `Option` here. -/
structure TweetResponse where
  success : Bool
  query : String
  count : Int
  results : List String
  sources : List TweetSource
  pipeline_stats : Option PipelineStats
  error : Option String
deriving DecidableEq

/-- Value of one HTTP query parameter sent by `TweetService.getTweets`. -/
inductive ParamValue where
  | str (v : String)
  | num (v : Int)
  | strList (v : List String)
deriving DecidableEq

/-- Unconditional parameters of every `getTweets` request. -/
def baseParams (query : String) (count top_k fetch_limit : Int) :
    List (String × ParamValue) :=
  [("query", ParamValue.str query), ("count", ParamValue.num count),
   ("top_k", ParamValue.num top_k),
   ("fetch_limit", ParamValue.num fetch_limit)]

/-- Conditional `include_sources` parameter: present exactly when the
argument was supplied and non-empty
(`includeSources && includeSources.length > 0`). -/
def includeParam (includeSources : Option (List String)) :
    List (String × ParamValue) :=
  match includeSources with
  | some l =>
      if 0 < l.length then [("include_sources", ParamValue.strList l)]
      else []
  | none => []

/-- Conditional `exclude_sources` parameter, symmetric to
`includeParam`. -/
def excludeParam (excludeSources : Option (List String)) :
    List (String × ParamValue) :=
  match excludeSources with
  | some l =>
      if 0 < l.length then [("exclude_sources", ParamValue.strList l)]
      else []
  | none => []

/-- Embedding of the `params` object built by `TweetService.getTweets`
(tweet.service.ts lines 23-43): always `query`, `count`, `top_k`,
`fetch_limit`; `include_sources` and `exclude_sources` are added only
when the corresponding argument is supplied and non-empty. -/
def getTweetsParams (query : String) (count top_k fetch_limit : Int)
    (includeSources excludeSources : Option (List String)) :
    List (String × ParamValue) :=
  baseParams query count top_k fetch_limit
    ++ includeParam includeSources ++ excludeParam excludeSources

/-! ### Cleanup response models (cleanup.model.ts) -/

/-- Embedding of `FolderCleanupResult` (cleanup.model.ts lines 27-36).
Optional interface fields (`session_id?`, `message?`) become `Option`;
the required ones are plain fields. -/
structure FolderCleanupResult where
  success : Bool
  deleted_count : Int
  deleted_files : List String
  errors : List String
  session_id : Option String
  message : Option String
  timestamp : String
deriving DecidableEq

/-- Embedding of `PineconeCleanupResult` (cleanup.model.ts lines
37-45). -/
structure PineconeCleanupResult where
  success : Bool
  vectors_deleted : Int
  vectors_before : Int
  vectors_after : Int
  session_id : Option String
  error : Option String
  timestamp : String
deriving DecidableEq

/-- Embedding of `CleanupResponse` (cleanup.model.ts lines 47-54):
`folder_cleanup` and `pinecone_cleanup` are required fields of the
interface, so every value carries both halves. -/
structure CleanupResponse where
  success : Bool
  folder_cleanup : FolderCleanupResult
  pinecone_cleanup : PineconeCleanupResult
  session_id : Option String
  timestamp : String
  warning : Option String
deriving DecidableEq

/-! ### CleanupService requests and the Tweets component (part_001) -/

/-- HTTP requests the `CleanupService` (cleanup.service.ts) can issue,
one constructor per method. -/
inductive CleanupHttpRequest where
  | postCleanupAll (confirm : Bool)
  | postCleanupSession (sessionId : String) (confirm : Bool)
  | deleteFolderOnly (confirm : Bool)
  | deletePineconeOnly (confirm : Bool)
  | getStats
  | getSessions
deriving DecidableEq

/-- Embedding of `CleanupService.cleanupAll`: POST to the cleanup root
with the confirm query parameter — cleans everything (folder and
Pinecone), with no session scoping. -/
def cleanupAll (confirm : Bool) : CleanupHttpRequest :=
  CleanupHttpRequest.postCleanupAll confirm

/-- Embedding of `CleanupService.cleanupSession`: POST to
`cleanup/session/{sessionId}` with the confirm query parameter. -/
def cleanupSession (sessionId : String) (confirm : Bool) :
    CleanupHttpRequest :=
  CleanupHttpRequest.postCleanupSession sessionId confirm

/-- Runtime value handled by the part_001 `Tweets` component: the
`TweetResponse` of tweet.model.ts plus the `session_id` the component
reads dynamically (`res.session_id` at line 91), a field the declared
interface does not list, hence `Option`. -/
structure TweetRunResponse extends TweetResponse where
  session_id : Option String
deriving DecidableEq

/-- Embedding of `Tweets.performAutoCleanup` (src/unnamed/part_001
lines 105-126): sets the status to `Cleaning up...` and issues
`cleanupAll(true)`.  The `sessionId` argument is received but never
used by the method body, exactly as in the source. -/
def performAutoCleanup (sessionId : Option String) :
    String × CleanupHttpRequest :=
  ("Cleaning up...", cleanupAll true)

/-- Cleanup request issued by the `next` handler of `Tweets.loadTweets`
(part_001 lines 84-93): on a successful response
`performAutoCleanup(res.session_id)` runs; on failure no cleanup is
issued. -/
def tweetsNextCleanup (res : TweetRunResponse) : Option CleanupHttpRequest :=
  if res.toTweetResponse.success then some (performAutoCleanup res.session_id).2
  else none

/-- Concrete successful response attributed to session `s1`. -/
def c1SampleResponse : TweetRunResponse :=
  ⟨⟨true, "q", 1, ["tweet"], [], none, none⟩, some "s1"⟩

/-! ### Query-parameter resolution in `Tweets.ngOnInit` -/

/-- Decimal digit test for `parseInt`. -/
def decDigit (c : Char) : Bool := 48 ≤ c.toNat && c.toNat ≤ 57

/-- Hexadecimal digit test for `parseInt` with a `0x` prefix. -/
def hexDigit (c : Char) : Bool :=
  decDigit c || (97 ≤ c.toNat && c.toNat ≤ 102) ||
    (65 ≤ c.toNat && c.toNat ≤ 70)

/-- Numeric value of a hexadecimal digit. -/
def hexVal (c : Char) : Nat :=
  if decDigit c then c.toNat - 48
  else if 97 ≤ c.toNat then c.toNat - 87
  else c.toNat - 55

/-- Value of a digit run under the given radix. -/
def digitsToNat (radix : Nat) (val : Char → Nat) (ds : List Char) : Nat :=
  ds.foldl (fun a c => a * radix + val c) 0

/-- Longest leading digit run; `none` when there is no digit at all
(which is `parseInt`'s NaN case). -/
def digitRun (isD : Char → Bool) (radix : Nat) (val : Char → Nat)
    (l : List Char) : Option Nat :=
  match l.takeWhile isD with
  | [] => none
  | ds => some (digitsToNat radix val ds)

/-- Magnitude parsed by `parseInt` after the optional sign: a `0x`/`0X`
prefix switches to hexadecimal, otherwise the run is decimal. -/
def jsParseIntMag (u : List Char) : Option Nat :=
  match u with
  | c0 :: c1 :: rest =>
      if c0.toNat = 48 && (c1.toNat = 120 || c1.toNat = 88) then
        digitRun hexDigit 16 hexVal rest
      else digitRun decDigit 10 (fun c => c.toNat - 48) u
  | _ => digitRun decDigit 10 (fun c => c.toNat - 48) u

/-- Embedding of JavaScript `parseInt(s)` with unspecified radix:
leading whitespace is skipped, an optional sign read, and the longest
digit run converted; `none` stands for NaN.  JS float precision on very
long digit runs is outside the claims and is not modelled. -/
def jsParseInt (s : String) : Option Int :=
  match s.toList.dropWhile isWS with
  | c :: rest =>
      if c.toNat = 45 then (jsParseIntMag rest).map (fun n => -(n : Int))
      else if c.toNat = 43 then (jsParseIntMag rest).map (fun n => (n : Int))
      else (jsParseIntMag (c :: rest)).map (fun n => (n : Int))
  | [] => none

/-- Embedding of the idiom `parseInt(x) || d` on a JS number: NaN (here
`none`), `0` and `-0` are falsy and fall back to the default. -/
def numOr (v : Option Int) (dflt : Int) : Int :=
  match v with
  | none => dflt
  | some n => if n = 0 then dflt else n

/-- Query parameters as the `Tweets` component receives them: every
field may be absent. -/
structure TweetsQueryParams where
  query : Option String
  count : Option String
  top_k : Option String
  fetch_limit : Option String

/-- Application of `parseInt` to a possibly-absent query parameter:
`parseInt(undefined)` coerces `undefined` to the string `undefined`,
which has no digits, hence NaN. -/
def parseIntParam (p : Option String) : Option Int :=
  match p with
  | none => none
  | some s => jsParseInt s

/-- Resolution of `count` in `Tweets.ngOnInit` (line 33 of tweets.ts,
line 63 of part_001): `parseInt(params.count) || 3`. -/
def resolvedCount (p : TweetsQueryParams) : Int :=
  numOr (parseIntParam p.count) 3

/-- Resolution of `top_k` in `Tweets.ngOnInit`:
`parseInt(params.top_k) || 5`. -/
def resolvedTopK (p : TweetsQueryParams) : Int :=
  numOr (parseIntParam p.top_k) 5

/-- Resolution of `fetch_limit` in `Tweets.ngOnInit`:
`parseInt(params.fetch_limit) || 10`. -/
def resolvedFetchLimit (p : TweetsQueryParams) : Int :=
  numOr (parseIntParam p.fetch_limit) 10

/-! ### Cleanup engine (spec-modelled) -/

/-- Scope of a cleanup request: one session or the sentinel all. -/
inductive Scope where
  | session (id : String)
  | all
deriving DecidableEq

/-- Error taxonomy entries the cleanup engine can reject with. -/
inductive CleanupError where
  | CleanupNotConfirmed
  | SessionBusy
deriving DecidableEq

/-- Modelled from the spec: the backend state the Cleanup Engine acts
on is missing from the repository sources (the Backend directory holds
only a README), so it is modelled from the design document: artifact
files tagged with their owning session (no path is claimed by two
sessions) and vector records whose metadata carries a session id. -/
structure EngineState where
  files : List (String × String)
  vectors : List (String × String)
deriving DecidableEq

/-- Whether a record owned by session `sid` falls under `scope`. -/
def scopeMatches (scope : Scope) (sid : String) : Bool :=
  match scope with
  | Scope.all => true
  | Scope.session i => i = sid

/-- Session id a cleanup result reports for the scope, when any. -/
def scopeSessionId (scope : Scope) : Option String :=
  match scope with
  | Scope.all => none
  | Scope.session i => some i

/-- Modelled from the spec: one confirmed cleanup pass of the missing
backend engine.  The folder half deletes exactly the files of the
scope; the vector half is `delete_by_filter` on the session metadata,
recording `vectors_before` and `vectors_after`; the two halves execute
independently and both outcomes are always populated. -/
def cleanupRun (scope : Scope) (ts : String) (st : EngineState) :
    CleanupResponse × EngineState :=
  (CleanupResponse.mk true
    (FolderCleanupResult.mk true
      ((st.files.filter (fun f => scopeMatches scope f.2)).length : Int)
      ((st.files.filter (fun f => scopeMatches scope f.2)).map Prod.fst)
      [] (scopeSessionId scope) none ts)
    (PineconeCleanupResult.mk true
      ((st.vectors.filter (fun v => scopeMatches scope v.2)).length : Int)
      (st.vectors.length : Int)
      ((st.vectors.filter (fun v => !scopeMatches scope v.2)).length : Int)
      (scopeSessionId scope) none ts)
    (scopeSessionId scope) ts none,
   EngineState.mk (st.files.filter (fun f => !scopeMatches scope f.2))
     (st.vectors.filter (fun v => !scopeMatches scope v.2)))

/-- Modelled from the spec: the cleanup entry point of the missing
backend engine, with its confirm safety gate — a request whose confirm
flag is false or absent is rejected with `CleanupNotConfirmed` and
touches neither subsystem. -/
def cleanup (scope : Scope) (confirm : Option Bool) (ts : String)
    (st : EngineState) : Except CleanupError CleanupResponse × EngineState :=
  if confirm = some true then
    (Except.ok (cleanupRun scope ts st).1, (cleanupRun scope ts st).2)
  else (Except.error CleanupError.CleanupNotConfirmed, st)

/-! ### Filters component (filters.ts) -/

/-- Selected-source state of the `Filters` component. -/
structure FiltersState where
  selectedInclude : List String
  selectedExclude : List String
deriving DecidableEq

/-- Initial component state: both selections empty. -/
def initialFilters : FiltersState := FiltersState.mk [] []

/-- User-driven operations of the `Filters` component that touch the
selections. -/
inductive FilterOp where
  | addInclude (source : String)
  | removeInclude (source : String)
  | addExclude (source : String)
  | removeExclude (source : String)
  | clearAll
deriving DecidableEq

/-- Embedding of `addInclude` / `removeInclude` / `addExclude` /
`removeExclude` / `clearAll` (filters.ts lines 107-135): adds check
membership first, removes filter the list, clearAll resets both. -/
def applyOp (st : FiltersState) (op : FilterOp) : FiltersState :=
  match op with
  | FilterOp.addInclude s =>
      if st.selectedInclude.contains s then st
      else FiltersState.mk (st.selectedInclude ++ [s]) st.selectedExclude
  | FilterOp.removeInclude s =>
      FiltersState.mk (st.selectedInclude.filter (fun x => x ≠ s))
        st.selectedExclude
  | FilterOp.addExclude s =>
      if st.selectedExclude.contains s then st
      else FiltersState.mk st.selectedInclude (st.selectedExclude ++ [s])
  | FilterOp.removeExclude s =>
      FiltersState.mk st.selectedInclude
        (st.selectedExclude.filter (fun x => x ≠ s))
  | FilterOp.clearAll => FiltersState.mk [] []

/-- State after a sequence of operations from the initial state. -/
def applyOps (ops : List FilterOp) : FiltersState :=
  ops.foldl applyOp initialFilters

/-- Embedding of `toLowerCase` as used on ASCII source names: lower
each character of the string. -/
def lowerJS (s : String) : String := String.mk (s.toList.map Char.toLower)

/-- Whether `needle` is an initial segment of `hay`. -/
def startsWithList (hay needle : List Char) : Bool :=
  match hay, needle with
  | _, [] => true
  | [], _ :: _ => false
  | h :: hs, n :: ns => h = n && startsWithList hs ns

/-- Whether `needle` occurs contiguously inside the list. -/
def strIncludes (needle : List Char) : List Char → Bool
  | [] => needle.isEmpty
  | c :: rest => startsWithList (c :: rest) needle || strIncludes needle rest

/-- Embedding of `hay.includes(needle)` on strings. -/
def jsIncludes (hay needle : String) : Bool :=
  strIncludes needle.toList hay.toList

/-- Embedding of the `filteredIncludeSources` getter (filters.ts lines
65-72): media sources not already selected on either side whose
lowercase form contains the lowercase search text. -/
def filteredIncludeSources (mediaSources : List String) (st : FiltersState)
    (includeSearch : String) : List String :=
  mediaSources.filter (fun s =>
    !(st.selectedInclude.contains s) && !(st.selectedExclude.contains s) &&
      jsIncludes (lowerJS s) (lowerJS includeSearch))

/-- Embedding of the `filteredExcludeSources` getter (filters.ts lines
74-81). -/
def filteredExcludeSources (mediaSources : List String) (st : FiltersState)
    (excludeSearch : String) : List String :=
  mediaSources.filter (fun s =>
    !(st.selectedExclude.contains s) && !(st.selectedInclude.contains s) &&
      jsIncludes (lowerJS s) (lowerJS excludeSearch))

/-! ### Basic lemmas about the string primitives -/

theorem splitOnSpace_ne_nil (l : List Char) : splitOnSpace l ≠ [] := by
  cases l with
  | nil => simp [splitOnSpace]
  | cons c rest =>
      unfold splitOnSpace
      by_cases h : c = spaceChar
      · simp [h]
      · simp only [h, if_false]
        cases splitOnSpace rest <;> simp

theorem joinSpace_cons (w : List Char) (ws : List (List Char)) :
    joinSpace (w :: ws) = w ++ sepJoin ws := by
  induction ws generalizing w with
  | nil => simp [joinSpace, sepJoin]
  | cons x ws ih => simp [joinSpace, sepJoin, ih x]

theorem sepJoin_cons (w : List Char) (ws : List (List Char)) :
    sepJoin (w :: ws) = spaceChar :: w ++ sepJoin ws := rfl

theorem joinSpace_splitOnSpace (l : List Char) :
    joinSpace (splitOnSpace l) = l := by
  induction l with
  | nil => rfl
  | cons c rest ih =>
      unfold splitOnSpace
      by_cases h : c = spaceChar
      · simp only [h, if_true]
        rcases hs : splitOnSpace rest with _ | ⟨w, ws⟩
        · exact absurd hs (splitOnSpace_ne_nil rest)
        · rw [hs] at ih
          simp [joinSpace_cons, sepJoin_cons] at ih ⊢
          simpa [h] using ih
      · simp only [h, if_false]
        rcases hs : splitOnSpace rest with _ | ⟨w, ws⟩
        · exact absurd hs (splitOnSpace_ne_nil rest)
        · rw [hs] at ih
          simp [joinSpace_cons, sepJoin_cons] at ih ⊢
          simpa using ih

theorem mem_splitOnSpace_no_space {l : List Char} {w : List Char}
    (hw : w ∈ splitOnSpace l) : spaceChar ∉ w := by
  induction l generalizing w with
  | nil => simp [splitOnSpace] at hw; simp [hw]
  | cons c rest ih =>
      unfold splitOnSpace at hw
      by_cases h : c = spaceChar
      · simp only [h, if_true, List.mem_cons] at hw
        rcases hw with rfl | hw
        · simp
        · exact ih hw
      · simp only [h, if_false] at hw
        rcases hs : splitOnSpace rest with _ | ⟨v, vs⟩
        · exact absurd hs (splitOnSpace_ne_nil rest)
        · rw [hs] at hw
          simp only [List.mem_cons] at hw
          rcases hw with rfl | hw
          · intro hmem
            rcases List.mem_cons.mp hmem with rfl | hmem
            · exact h rfl
            · exact ih (hs ▸ List.mem_cons_self v vs) hmem
          · exact ih (hs ▸ List.mem_cons_of_mem v hw)

theorem dropWhile_head_false {p : Char → Bool} {l : List Char} {c : Char}
    {t : List Char} (h : l.dropWhile p = c :: t) : p c = false := by
  induction l with
  | nil => simp [List.dropWhile] at h
  | cons a l ih =>
      rw [List.dropWhile_cons] at h
      by_cases hp : p a = true
      · exact ih (by simpa [hp] using h)
      · simp only [hp, if_false] at h
        cases h
        simpa using hp

theorem length_trimJS_le (l : List Char) : (trimJS l).length ≤ l.length := by
  unfold trimJS
  calc ((l.dropWhile isWS).reverse.dropWhile isWS).reverse.length
      = ((l.dropWhile isWS).reverse.dropWhile isWS).length := by
        simp
    _ ≤ (l.dropWhile isWS).reverse.length :=
        (List.dropWhile_sublist _).length_le
    _ = (l.dropWhile isWS).length := by simp
    _ ≤ l.length := (List.dropWhile_sublist _).length_le

theorem trimJS_eq_nil_iff {l : List Char} :
    trimJS l = [] ↔ ∀ c ∈ l, isWS c = true := by
  unfold trimJS
  constructor
  · intro h c hc
    rw [List.reverse_eq_nil_iff, List.dropWhile_eq_nil_iff] at h
    by_cases hmem : c ∈ l.dropWhile isWS
    · exact h c (by simpa using hmem)
    · have hsplit := List.takeWhile_append_dropWhile (p := isWS) (l := l)
      have : c ∈ l.takeWhile isWS ++ l.dropWhile isWS := by rw [hsplit]; exact hc
      rcases List.mem_append.mp this with htk | hdk
      · exact List.mem_takeWhile_imp htk
      · exact absurd hdk hmem
  · intro h
    have h1 : l.dropWhile isWS = [] := by
      rw [List.dropWhile_eq_nil_iff]; exact h
    simp [h1]

theorem trimJS_isPrefixOfSelf (l : List Char) :
    trimJS l <+: l.dropWhile isWS := by
  unfold trimJS
  have hsfx : ((l.dropWhile isWS).reverse.dropWhile isWS) <:+
      (l.dropWhile isWS).reverse := List.dropWhile_suffix _
  have := List.reverse_prefix.mpr (by simpa using hsfx)
  simpa using this

theorem head_trimJS_false {l : List Char} {c : Char} {t : List Char}
    (h : trimJS l = c :: t) : isWS c = false := by
  obtain ⟨r, hr⟩ := trimJS_isPrefixOfSelf l
  rw [h] at hr
  exact dropWhile_head_false hr.symm

theorem trimJS_eq_self_of_edges {l : List Char} {c d : Char}
    {t u : List Char} (h1 : l = c :: t) (h2 : isWS c = false)
    (h3 : l.reverse = d :: u) (h4 : isWS d = false) : trimJS l = l := by
  unfold trimJS
  have ha : l.dropWhile isWS = l := by
    rw [h1, List.dropWhile_cons, h2]; simp
  rw [ha, h3, List.dropWhile_cons, h4]
  simp [← h3]

theorem trimJS_space_cons (l : List Char) :
    trimJS (spaceChar :: l) = trimJS l := by
  unfold trimJS
  have : (spaceChar :: l).dropWhile isWS = l.dropWhile isWS := by
    rw [List.dropWhile_cons]
    have : isWS spaceChar = true := by decide
    simp [this]
  rw [this]

theorem sepJoin_all_ws {ws : List (List Char)}
    (h : ∀ w ∈ ws, ∀ c ∈ w, isWS c = true) :
    ∀ c ∈ sepJoin ws, isWS c = true := by
  induction ws with
  | nil => simp [sepJoin]
  | cons w ws ih =>
      intro c hc
      rw [sepJoin_cons] at hc
      rcases List.mem_cons.mp hc with rfl | h2
      · decide
      · rcases List.mem_append.mp h2 with hw | hs
        · exact h w (List.mem_cons_self _ _) c hw
        · exact ih (fun v hv => h v (List.mem_cons_of_mem _ hv)) c hs

theorem joinSpace_all_ws {ws : List (List Char)}
    (h : ∀ w ∈ ws, ∀ c ∈ w, isWS c = true) :
    ∀ c ∈ joinSpace ws, isWS c = true := by
  cases ws with
  | nil => simp [joinSpace]
  | cons w ws =>
      intro c hc
      rw [joinSpace_cons] at hc
      rcases List.mem_append.mp hc with hw | hs
      · exact h w (List.mem_cons_self _ _) c hw
      · exact sepJoin_all_ws (fun v hv => h v (List.mem_cons_of_mem _ hv)) c hs

theorem length_sepJoin (ws : List (List Char)) :
    (sepJoin ws).length = spaceLen ws := by
  induction ws with
  | nil => rfl
  | cons w ws ih => simp [sepJoin_cons, spaceLen, List.map_cons] at ih ⊢; omega

theorem length_joinSpace_cons (w : List Char) (ws : List (List Char)) :
    (joinSpace (w :: ws)).length = w.length + spaceLen ws := by
  rw [joinSpace_cons]
  simp [length_sepJoin]

theorem joinSpace_cons_ne (x : List Char) {l : List (List Char)}
    (h : l ≠ []) : joinSpace (x :: l) = x ++ spaceChar :: joinSpace l := by
  cases l with
  | nil => exact absurd rfl h
  | cons y l => rfl

theorem joinSpace_append_singleton {l : List (List Char)} (w : List Char)
    (h : l ≠ []) : joinSpace (l ++ [w]) = joinSpace l ++ spaceChar :: w := by
  induction l with
  | nil => exact absurd rfl h
  | cons x l ih =>
      cases l with
      | nil => rfl
      | cons y l =>
          rw [List.cons_append,
            joinSpace_cons_ne x (by simp), joinSpace_cons_ne x (by simp),
            ih (by simp)]
          simp

theorem joinSpace_append_last (l : List (List Char)) (a b : List Char) :
    joinSpace (l ++ [a ++ b]) = joinSpace (l ++ [a]) ++ b := by
  induction l with
  | nil => rfl
  | cons x l ih =>
      rw [List.cons_append, List.cons_append,
        joinSpace_cons_ne x (by simp), joinSpace_cons_ne x (by simp), ih]
      simp

/-! ### Invariants of the word loop of `formatThread` -/

theorem foldl_stepTweet_chunkOk (maxChars : Nat) :
    ∀ (ws : List (List Char)) (tweets : List (List Char)) (ct : List Char),
    (∀ w ∈ ws, spaceChar ∉ w) →
    (∀ t ∈ tweets, t.length ≤ maxChars ∨ spaceChar ∉ t) →
    (ct.length ≤ maxChars ∨ spaceChar ∉ ct) →
    (∀ t ∈ (ws.foldl (stepTweet maxChars) (tweets, ct)).1,
        t.length ≤ maxChars ∨ spaceChar ∉ t) ∧
    ((ws.foldl (stepTweet maxChars) (tweets, ct)).2.length ≤ maxChars ∨
        spaceChar ∉ (ws.foldl (stepTweet maxChars) (tweets, ct)).2) := by
  intro ws
  induction ws with
  | nil => intro tweets ct _ ht hc; exact ⟨ht, hc⟩
  | cons w rest ih =>
      intro tweets ct hws ht hc
      rw [List.foldl_cons]
      by_cases hfit : (trimJS (ct ++ spaceChar :: w)).length ≤ maxChars
      · have hstep : stepTweet maxChars (tweets, ct) w =
            (tweets, trimJS (ct ++ spaceChar :: w)) := by
          simp [stepTweet, hfit]
        rw [hstep]
        exact ih tweets (trimJS (ct ++ spaceChar :: w))
          (fun v hv => hws v (List.mem_cons_of_mem _ hv)) ht (Or.inl hfit)
      · have hstep : stepTweet maxChars (tweets, ct) w =
            ((if ct = [] then tweets else tweets ++ [ct]), w) := by
          simp [stepTweet, hfit]
        rw [hstep]
        have hw : spaceChar ∉ w := hws w (List.mem_cons_self _ _)
        have ht2 : ∀ t ∈ (if ct = [] then tweets else tweets ++ [ct]),
            t.length ≤ maxChars ∨ spaceChar ∉ t := by
          by_cases hct : ct = []
          · simpa [hct] using ht
          · simp only [hct, if_false]
            intro t htm
            rcases List.mem_append.mp htm with h1 | h2
            · exact ht t h1
            · rcases List.mem_singleton.mp h2 with rfl
              exact hc
        exact ih _ w (fun v hv => hws v (List.mem_cons_of_mem _ hv)) ht2
          (Or.inr hw)

theorem foldl_stepTweet_small (maxChars : Nat) :
    ∀ (ws : List (List Char)) (ct : List Char),
    ct.length + spaceLen ws ≤ maxChars →
    headOk ct →
    ∃ ct', ws.foldl (stepTweet maxChars) ([], ct) = ([], ct') ∧
      headOk ct' ∧
      (ct' = [] ↔ (ct = [] ∧ ∀ w ∈ ws, ∀ c ∈ w, isWS c = true)) := by
  intro ws
  induction ws with
  | nil =>
      intro ct _ hok
      exact ⟨ct, rfl, hok, by simp⟩
  | cons w rest ih =>
      intro ct hlen hok
      have hsp : spaceLen (w :: rest) = (w.length + 1) + spaceLen rest := by
        simp [spaceLen]
      have hcand : (trimJS (ct ++ spaceChar :: w)).length ≤
          ct.length + (w.length + 1) := by
        have := length_trimJS_le (ct ++ spaceChar :: w)
        simpa [List.length_append, Nat.add_comm, Nat.add_left_comm] using this
      have hfit : (trimJS (ct ++ spaceChar :: w)).length ≤ maxChars := by
        omega
      rw [List.foldl_cons]
      have hstep : stepTweet maxChars ([], ct) w =
          ([], trimJS (ct ++ spaceChar :: w)) := by
        simp [stepTweet, hfit]
      rw [hstep]
      have hok2 : headOk (trimJS (ct ++ spaceChar :: w)) := by
        intro c t hct
        exact head_trimJS_false hct
      obtain ⟨ct', hfold, hok', hiff⟩ :=
        ih (trimJS (ct ++ spaceChar :: w)) (by omega) hok2
      refine ⟨ct', hfold, hok', ?_⟩
      rw [hiff]
      have hnil : trimJS (ct ++ spaceChar :: w) = [] ↔
          (ct = [] ∧ ∀ c ∈ w, isWS c = true) := by
        rw [trimJS_eq_nil_iff]
        constructor
        · intro h
          have hct : ct = [] := by
            cases ct with
            | nil => rfl
            | cons c t =>
                have := h c (by simp)
                have := hok c t rfl
                simp_all
          refine ⟨hct, fun c hc => h c ?_⟩
          exact List.mem_append.mpr (Or.inr (List.mem_cons_of_mem _ hc))
        · rintro ⟨rfl, hw⟩ c hc
          simp only [List.nil_append, List.mem_cons] at hc
          rcases hc with rfl | hc
          · decide
          · exact hw c hc
      rw [hnil]
      constructor
      · rintro ⟨⟨rfl, hw⟩, hrest⟩
        refine ⟨rfl, fun v hv => ?_⟩
        rcases List.mem_cons.mp hv with rfl | hv2
        · exact hw
        · exact hrest v hv2
      · rintro ⟨rfl, hall⟩
        exact ⟨⟨rfl, hall w (List.mem_cons_self _ _)⟩,
          fun v hv => hall v (List.mem_cons_of_mem _ hv)⟩

theorem foldl_stepTweet_clean (maxChars : Nat) :
    ∀ (ws : List (List Char)) (tweets : List (List Char)) (ct : List Char),
    (∀ w ∈ ws, cleanWord w) → ct ≠ [] → headOk ct → headOk ct.reverse →
    ∃ tweets' ct',
      ws.foldl (stepTweet maxChars) (tweets, ct) = (tweets', ct') ∧
      ct' ≠ [] ∧ headOk ct' ∧ headOk ct'.reverse ∧
      joinSpace (tweets' ++ [ct']) = joinSpace (tweets ++ [ct]) ++ sepJoin ws := by
  intro ws
  induction ws with
  | nil =>
      intro tweets ct _ hne hok hrev
      exact ⟨tweets, ct, rfl, hne, hok, hrev, by simp [sepJoin]⟩
  | cons w rest ih =>
      intro tweets ct hws hne hok hrev
      obtain ⟨hwne, hwclean⟩ := hws w (List.mem_cons_self _ _)
      obtain ⟨c, t, hct⟩ := List.exists_cons_of_ne_nil hne
      obtain ⟨d, u, hwrev⟩ := List.exists_cons_of_ne_nil
        (by simpa using hwne : w.reverse ≠ [])
      have hcw : isWS c = false := hok c t hct
      have hdw : isWS d = false := by
        refine hwclean d ?_
        have : d ∈ w.reverse := by rw [hwrev]; simp
        simpa using this
      have hcandne : ct ++ spaceChar :: w = c :: (t ++ spaceChar :: w) := by
        rw [hct]; rfl
      have hcandrev : (ct ++ spaceChar :: w).reverse =
          d :: (u ++ spaceChar :: ct.reverse) := by
        rw [List.reverse_append, List.reverse_cons, hwrev]
        simp
      have htrim : trimJS (ct ++ spaceChar :: w) = ct ++ spaceChar :: w :=
        trimJS_eq_self_of_edges hcandne hcw hcandrev hdw
      rw [List.foldl_cons]
      by_cases hfit : (trimJS (ct ++ spaceChar :: w)).length ≤ maxChars
      · have hstep : stepTweet maxChars (tweets, ct) w =
            (tweets, ct ++ spaceChar :: w) := by
          have h0 : stepTweet maxChars (tweets, ct) w =
              (tweets, trimJS (ct ++ spaceChar :: w)) := by
            simp [stepTweet, hfit]
          rw [h0, htrim]
        rw [hstep]
        obtain ⟨tweets', ct', hfold, hne', hok', hrev', hjoin⟩ :=
          ih tweets (ct ++ spaceChar :: w)
            (fun v hv => hws v (List.mem_cons_of_mem _ hv))
            (by rw [hcandne]; simp)
            (by intro e s hes; rw [hcandne] at hes; cases hes; exact hcw)
            (by intro e s hes; rw [hcandrev] at hes; cases hes; exact hdw)
        refine ⟨tweets', ct', hfold, hne', hok', hrev', ?_⟩
        rw [hjoin]
        have : joinSpace (tweets ++ [ct ++ spaceChar :: w]) =
            joinSpace (tweets ++ [ct]) ++ spaceChar :: w :=
          joinSpace_append_last tweets ct (spaceChar :: w)
        rw [this, sepJoin_cons]
        simp
      · have hstep : stepTweet maxChars (tweets, ct) w =
            (tweets ++ [ct], w) := by
          simp [stepTweet, hfit, hne]
        rw [hstep]
        obtain ⟨tweets', ct', hfold, hne', hok', hrev', hjoin⟩ :=
          ih (tweets ++ [ct]) w
            (fun v hv => hws v (List.mem_cons_of_mem _ hv))
            hwne
            (by intro e s hes; exact hwclean e (by rw [hes]; simp))
            (by intro e s hes; refine hwclean e ?_;
                have : e ∈ w.reverse := by rw [hes]; simp
                simpa using this)
        refine ⟨tweets', ct', hfold, hne', hok', hrev', ?_⟩
        rw [hjoin]
        have : joinSpace ((tweets ++ [ct]) ++ [w]) =
            joinSpace (tweets ++ [ct]) ++ spaceChar :: w :=
          joinSpace_append_singleton w (by simp)
        rw [this, sepJoin_cons]
        simp

/-! ### Claim theorems about the chunker -/

/-- C3 counterexample: with `maxChars = 3`, the single-word input `abcd`
comes back as one chunk of length 4, which exceeds the configured cap,
so not every chunk has length at most `maxChars`. -/
theorem c3_counterexample :
    formatThread ("abcd".toList) 3 = [("abcd".toList)] ∧
    ¬ (("abcd".toList).length ≤ 3) := by
  constructor
  · decide
  · decide

/-- C3, amended: every chunk produced by `ThreadFormatter.formatThread`
either has length at most `maxChars` or contains no space at all, i.e.
it is a single word of the input that is itself longer than `maxChars`
(the loop never splits inside a word). -/
theorem c3_chunk_bound (input : List Char) (maxChars : Nat) (c : List Char)
    (hc : c ∈ formatThread input maxChars) :
    c.length ≤ maxChars ∨ spaceChar ∉ c := by
  unfold formatThread at hc
  by_cases hg : trimJS input = []
  · rw [if_pos hg] at hc
    simp at hc
  · rw [if_neg hg] at hc
    obtain ⟨hts, hct⟩ := foldl_stepTweet_chunkOk maxChars (splitOnSpace input)
      [] [] (fun w hw => mem_splitOnSpace_no_space hw) (by simp)
      (Or.inl (Nat.zero_le _))
    by_cases h2 : ((splitOnSpace input).foldl (stepTweet maxChars) ([], [])).2 = []
    · rw [if_pos h2] at hc
      exact hts c hc
    · rw [if_neg h2] at hc
      rcases List.mem_append.mp hc with h | h
      · exact hts c h
      · rcases List.mem_singleton.mp h with rfl
        exact hct

/-- C3 witness: the bound theorem applied at a concrete chunk of a
concrete run. -/
theorem c3_witness :
    ("ab".toList) ∈ formatThread ("ab".toList) 280 ∧
    (("ab".toList).length ≤ 280 ∨ spaceChar ∉ ("ab".toList)) :=
  ⟨by decide, c3_chunk_bound ("ab".toList) 280 ("ab".toList) (by decide)⟩

/-- C8 counterexample: the input consisting of a single space is
non-empty and no longer than `maxChars = 280`, yet the chunker yields
zero chunks, not one. -/
theorem c8_counterexample :
    formatThread [spaceChar] 280 = [] ∧
    ([spaceChar] : List Char) ≠ [] ∧ ([spaceChar] : List Char).length ≤ 280 := by
  refine ⟨by decide, by decide, by decide⟩

/-- C8, amended: the empty input yields zero chunks (and no failure),
and every input whose *trimmed* text is non-empty and whose length is at
most `maxChars` yields exactly one chunk.  A non-empty but entirely
whitespace input also yields zero chunks, which the counterexample
records. -/
theorem c8_edge_cases (maxChars : Nat) :
    formatThread [] maxChars = [] ∧
    ∀ input : List Char, trimJS input ≠ [] → input.length ≤ maxChars →
      (formatThread input maxChars).length = 1 := by
  constructor
  · unfold formatThread
    rw [if_pos (show trimJS [] = [] from rfl)]
  · intro input hne hlen
    rcases hsp : splitOnSpace input with _ | ⟨w₀, rest⟩
    · exact absurd hsp (splitOnSpace_ne_nil input)
    have hjoin : joinSpace (w₀ :: rest) = input := by
      rw [← hsp]; exact joinSpace_splitOnSpace input
    have hlen0 : input.length = w₀.length + spaceLen rest := by
      rw [← hjoin]; exact length_joinSpace_cons w₀ rest
    have htw0 := length_trimJS_le w₀
    have hw0 : (trimJS (spaceChar :: w₀)).length ≤ maxChars := by
      rw [trimJS_space_cons]
      omega
    have hfirst : stepTweet maxChars ([], []) w₀ = ([], trimJS w₀) := by
      have h0 : stepTweet maxChars ([], []) w₀ =
          ([], trimJS (spaceChar :: w₀)) := by
        simp [stepTweet, hw0]
      rw [h0, trimJS_space_cons]
    have hokt : headOk (trimJS w₀) := fun c t hct => head_trimJS_false hct
    obtain ⟨ct', hfold, hok', hiff⟩ :=
      foldl_stepTweet_small maxChars rest (trimJS w₀) (by omega) hokt
    have hct'ne : ct' ≠ [] := by
      intro h
      obtain ⟨h1, h2⟩ := hiff.mp h
      have hw0ws : ∀ c ∈ w₀, isWS c = true := trimJS_eq_nil_iff.mp h1
      have hallws : ∀ w ∈ w₀ :: rest, ∀ c ∈ w, isWS c = true := by
        intro w hw
        rcases List.mem_cons.mp hw with rfl | hw2
        · exact hw0ws
        · exact h2 w hw2
      have hall : ∀ c ∈ input, isWS c = true := by
        rw [← hjoin]; exact joinSpace_all_ws hallws
      exact hne (trimJS_eq_nil_iff.mpr hall)
    unfold formatThread
    rw [if_neg hne, hsp, List.foldl_cons, hfirst, hfold]
    simp [hct'ne]

/-- C8 witness: the amended theorem applied at a concrete short input. -/
theorem c8_witness :
    formatThread [] 280 = [] ∧
    trimJS ("ab".toList) ≠ [] ∧ ("ab".toList).length ≤ 280 ∧
    (formatThread ("ab".toList) 280).length = 1 :=
  ⟨(c8_edge_cases 280).1, by decide, by decide,
    (c8_edge_cases 280).2 ("ab".toList) (by decide) (by decide)⟩

/-- C2 counterexample: the input `a␣␣b` (two spaces) is chunked into the
single chunk `a␣b`, so the concatenation of chunks (a single chunk, so
no overlap to remove) differs from the original text: the chunker
normalizes whitespace and is not lossless. -/
theorem c2_counterexample :
    formatThread ("a  b".toList) 280 = [("a b".toList)] ∧
    ("a b".toList) ≠ ("a  b".toList) := by
  refine ⟨by decide, by decide⟩

/-- C2, amended: the chunker is lossless exactly up to whitespace
normalization.  For every input that is a single-space-separated
sequence of non-empty whitespace-free words (`cleanText`), and every
`maxChars`, joining the produced chunks with single spaces reproduces
the input text exactly.  (The source has no overlap parameter, so
"minus overlap" is the plain join.)  For other inputs — repeated,
leading or trailing whitespace — reconstruction fails, as the
counterexample shows. -/
theorem c2_lossless_clean (input : List Char) (maxChars : Nat)
    (h : cleanText input) :
    joinSpace (formatThread input maxChars) = input := by
  obtain ⟨hne, hwords⟩ := h
  rcases hsp : splitOnSpace input with _ | ⟨w₀, rest⟩
  · exact absurd hsp (splitOnSpace_ne_nil input)
  obtain ⟨hw0ne, hw0clean⟩ := hwords w₀ (by
    rw [hsp]; exact List.mem_cons_self _ _)
  have hjoin : joinSpace (w₀ :: rest) = input := by
    rw [← hsp]; exact joinSpace_splitOnSpace input
  obtain ⟨c, t, hct⟩ := List.exists_cons_of_ne_nil hw0ne
  have hcw : isWS c = false := hw0clean c (by rw [hct]; simp)
  have hinput_ne : trimJS input ≠ [] := by
    intro habs
    have hall := trimJS_eq_nil_iff.mp habs
    have hcmem : c ∈ input := by
      rw [← hjoin, joinSpace_cons]
      exact List.mem_append.mpr (Or.inl (by rw [hct]; simp))
    have := hall c hcmem
    simp [hcw] at this
  have htrimw0 : trimJS w₀ = w₀ := by
    obtain ⟨d, u, hrev⟩ := List.exists_cons_of_ne_nil
      (show w₀.reverse ≠ [] by simpa using hw0ne)
    refine trimJS_eq_self_of_edges hct hcw hrev (hw0clean d ?_)
    have : d ∈ w₀.reverse := by rw [hrev]; simp
    simpa using this
  have hfirst : stepTweet maxChars ([], []) w₀ = ([], w₀) := by
    have hsc : trimJS (spaceChar :: w₀) = w₀ := by
      rw [trimJS_space_cons, htrimw0]
    by_cases hfit : (trimJS (spaceChar :: w₀)).length ≤ maxChars
    · have h0 : stepTweet maxChars ([], []) w₀ =
          ([], trimJS (spaceChar :: w₀)) := by
        simp [stepTweet, hfit]
      rw [h0, hsc]
    · simp [stepTweet, hfit]
  obtain ⟨tweets', ct', hfold, hne', hok', hrev', hjoin'⟩ :=
    foldl_stepTweet_clean maxChars rest [] w₀
      (fun v hv => hwords v (by rw [hsp]; exact List.mem_cons_of_mem _ hv))
      hw0ne
      (fun e s hes => hw0clean e (by rw [hes]; simp))
      (fun e s hes => hw0clean e (by
        have : e ∈ w₀.reverse := by rw [hes]; simp
        simpa using this))
  unfold formatThread
  rw [if_neg hinput_ne, hsp, List.foldl_cons, hfirst, hfold]
  simp only [hne', if_false]
  rw [hjoin']
  have h1 : joinSpace (([] : List (List Char)) ++ [w₀]) = w₀ := rfl
  rw [h1, ← joinSpace_cons, hjoin]

/-- C2 witness: the amended losslessness theorem applied at a concrete
clean input. -/
theorem c2_witness :
    cleanText ("ab cd".toList) ∧
    joinSpace (formatThread ("ab cd".toList) 7) = ("ab cd".toList) :=
  ⟨by decide, c2_lossless_clean ("ab cd".toList) 7 (by decide)⟩

/-! ### Helper lemmas for the remaining claims -/

theorem filter_not_filter_self {α : Type} (l : List α) (p : α → Bool) :
    (l.filter (fun x => !p x)).filter p = [] := by
  induction l with
  | nil => rfl
  | cons a l ih =>
      by_cases h : p a = true
      · simp [List.filter_cons, h, ih]
      · simp only [Bool.not_eq_true] at h
        simp [List.filter_cons, h, ih]

theorem nodup_append_singleton {s : String} {l : List String}
    (hn : s ∉ l) (h : l.Nodup) : (l ++ [s]).Nodup := by
  induction l with
  | nil => simp
  | cons a l ih =>
      rcases List.nodup_cons.mp h with ⟨ha, hl⟩
      have hs : s ∉ l := fun hin => hn (List.mem_cons_of_mem _ hin)
      have hne : s ≠ a := fun he => hn (he ▸ List.mem_cons_self _ _)
      refine List.nodup_cons.mpr ⟨?_, ih hs hl⟩
      intro hmem
      rcases List.mem_append.mp hmem with h1 | h2
      · exact ha h1
      · exact hne (List.mem_singleton.mp h2).symm

theorem applyOp_nodup (st : FiltersState) (op : FilterOp)
    (h1 : st.selectedInclude.Nodup) (h2 : st.selectedExclude.Nodup) :
    (applyOp st op).selectedInclude.Nodup ∧
    (applyOp st op).selectedExclude.Nodup := by
  cases op with
  | addInclude s =>
      by_cases hm : s ∈ st.selectedInclude
      · have hc : st.selectedInclude.contains s = true := by simpa using hm
        simp only [applyOp, hc, if_true]
        exact ⟨h1, h2⟩
      · have hc : ¬ st.selectedInclude.contains s = true := by simpa using hm
        simp only [applyOp, hc, if_false]
        exact ⟨nodup_append_singleton hm h1, h2⟩
  | removeInclude s => exact ⟨List.Nodup.filter _ h1, h2⟩
  | addExclude s =>
      by_cases hm : s ∈ st.selectedExclude
      · have hc : st.selectedExclude.contains s = true := by simpa using hm
        simp only [applyOp, hc, if_true]
        exact ⟨h1, h2⟩
      · have hc : ¬ st.selectedExclude.contains s = true := by simpa using hm
        simp only [applyOp, hc, if_false]
        exact ⟨h1, nodup_append_singleton hm h2⟩
  | removeExclude s => exact ⟨h1, List.Nodup.filter _ h2⟩
  | clearAll => simp [applyOp]

theorem foldl_applyOp_nodup (ops : List FilterOp) :
    ∀ st : FiltersState, st.selectedInclude.Nodup →
    st.selectedExclude.Nodup →
    (ops.foldl applyOp st).selectedInclude.Nodup ∧
    (ops.foldl applyOp st).selectedExclude.Nodup := by
  induction ops with
  | nil => intro st h1 h2; exact ⟨h1, h2⟩
  | cons op rest ih =>
      intro st h1 h2
      rw [List.foldl_cons]
      obtain ⟨g1, g2⟩ := applyOp_nodup st op h1 h2
      exact ih (applyOp st op) g1 g2

theorem include_key_not_in_base (q : String) (c t f : Int) (v : ParamValue) :
    ("include_sources", v) ∉ baseParams q c t f := by
  intro hv
  simp only [baseParams, List.mem_cons, List.not_mem_nil, or_false,
    Prod.mk.injEq] at hv
  rcases hv with ⟨h, _⟩ | ⟨h, _⟩ | ⟨h, _⟩ | ⟨h, _⟩ <;> exact absurd h (by decide)

theorem exclude_key_not_in_base (q : String) (c t f : Int) (v : ParamValue) :
    ("exclude_sources", v) ∉ baseParams q c t f := by
  intro hv
  simp only [baseParams, List.mem_cons, List.not_mem_nil, or_false,
    Prod.mk.injEq] at hv
  rcases hv with ⟨h, _⟩ | ⟨h, _⟩ | ⟨h, _⟩ | ⟨h, _⟩ <;> exact absurd h (by decide)

theorem include_key_not_in_excludeParam (exc : Option (List String))
    (v : ParamValue) : ("include_sources", v) ∉ excludeParam exc := by
  rcases exc with _ | l
  · simp [excludeParam]
  · by_cases h : 0 < l.length
    · intro hv
      simp only [excludeParam, h, if_true, List.mem_singleton,
        Prod.mk.injEq] at hv
      exact absurd hv.1 (by decide)
    · simp [excludeParam, h]

theorem exclude_key_not_in_includeParam (inc : Option (List String))
    (v : ParamValue) : ("exclude_sources", v) ∉ includeParam inc := by
  rcases inc with _ | l
  · simp [includeParam]
  · by_cases h : 0 < l.length
    · intro hv
      simp only [includeParam, h, if_true, List.mem_singleton,
        Prod.mk.injEq] at hv
      exact absurd hv.1 (by decide)
    · simp [includeParam, h]

/-! ### Claim theorems for the services, components and models -/

/-- C1 counterexample: for the concrete successful response attributed
to session `s1`, the cleanup request the component issues is the
unscoped `cleanupAll(true)`, not `cleanupSession('s1', true)` — so the
cleanup is not scoped to the session that produced the response. -/
theorem c1_counterexample :
    tweetsNextCleanup c1SampleResponse = some (cleanupAll true) ∧
    c1SampleResponse.session_id = some "s1" ∧
    tweetsNextCleanup c1SampleResponse ≠ some (cleanupSession "s1" true) := by
  refine ⟨by decide, by decide, by decide⟩

/-- C1, amended: after a successful `TweetResponse` handled by
`Tweets.loadTweets`, the component issues the global
`cleanupAll(true)` request (scope all, confirm true), ignoring the
response's `session_id`; a failed response issues no cleanup; and no
run ever issues a session-scoped cleanup request. -/
theorem c1_auto_cleanup_scope (res : TweetRunResponse) :
    (res.toTweetResponse.success = true →
      tweetsNextCleanup res = some (cleanupAll true)) ∧
    (res.toTweetResponse.success = false →
      tweetsNextCleanup res = none) ∧
    (∀ sid confirm,
      tweetsNextCleanup res ≠ some (cleanupSession sid confirm)) := by
  refine ⟨?_, ?_, ?_⟩
  · intro h
    simp [tweetsNextCleanup, h, performAutoCleanup]
  · intro h
    simp [tweetsNextCleanup, h]
  · intro sid confirm
    unfold tweetsNextCleanup
    by_cases h : res.toTweetResponse.success = true
    · simp [h, performAutoCleanup, cleanupAll, cleanupSession]
    · simp [h]

/-- C1 witness: the amended theorem applied at the concrete successful
response. -/
theorem c1_witness :
    tweetsNextCleanup c1SampleResponse = some (cleanupAll true) :=
  (c1_auto_cleanup_scope c1SampleResponse).1 (by decide)

/-- C4: every `CleanupResponse` value carries both `folder_cleanup`
and `pinecone_cleanup` — the fields are required, recoverable by
projection, and independent (any folder outcome can be paired with any
vector outcome, including fully failed ones); the two outcome records
in turn always carry `deleted_count`/`deleted_files`/`errors` and
`vectors_deleted`/`vectors_before`/`vectors_after`. -/
theorem c4_both_halves (s : Bool) (f : FolderCleanupResult)
    (p : PineconeCleanupResult) (sid : Option String) (ts : String)
    (w : Option String) :
    (CleanupResponse.mk s f p sid ts w).folder_cleanup = f ∧
    (CleanupResponse.mk s f p sid ts w).pinecone_cleanup = p ∧
    (∀ r : CleanupResponse,
      r = CleanupResponse.mk r.success r.folder_cleanup r.pinecone_cleanup
        r.session_id r.timestamp r.warning) ∧
    (∀ fr : FolderCleanupResult,
      fr = FolderCleanupResult.mk fr.success fr.deleted_count
        fr.deleted_files fr.errors fr.session_id fr.message fr.timestamp) ∧
    (∀ pr : PineconeCleanupResult,
      pr = PineconeCleanupResult.mk pr.success pr.vectors_deleted
        pr.vectors_before pr.vectors_after pr.session_id pr.error
        pr.timestamp) :=
  ⟨rfl, rfl, fun _ => rfl, fun _ => rfl, fun _ => rfl⟩

/-- C5 counterexample: `pipeline_stats` is declared optional
(`pipeline_stats?`) in the `TweetResponse` interface, so a response
value without it is well-formed — the field is not always present as
the claim states. -/
theorem c5_counterexample :
    (TweetResponse.mk true "q" 0 [] [] none none).pipeline_stats = none := rfl

/-- C5, amended: every `getTweets` request carries `query`, `count`,
`top_k` and `fetch_limit` with the supplied values, and carries
`include_sources` (resp. `exclude_sources`) exactly when a non-empty
list was supplied; the response has fields `success`, `query`, `count`,
`results`, `sources`, with `pipeline_stats` and `error` both optional. -/
theorem c5_exchange_shape (query : String) (count top_k fetch_limit : Int)
    (inc exc : Option (List String)) :
    ("query", ParamValue.str query) ∈
      getTweetsParams query count top_k fetch_limit inc exc ∧
    ("count", ParamValue.num count) ∈
      getTweetsParams query count top_k fetch_limit inc exc ∧
    ("top_k", ParamValue.num top_k) ∈
      getTweetsParams query count top_k fetch_limit inc exc ∧
    ("fetch_limit", ParamValue.num fetch_limit) ∈
      getTweetsParams query count top_k fetch_limit inc exc ∧
    ((∃ v, ("include_sources", v) ∈
        getTweetsParams query count top_k fetch_limit inc exc) ↔
      (∃ l, inc = some l ∧ l ≠ [])) ∧
    ((∃ v, ("exclude_sources", v) ∈
        getTweetsParams query count top_k fetch_limit inc exc) ↔
      (∃ l, exc = some l ∧ l ≠ [])) ∧
    (∀ r : TweetResponse,
      r = TweetResponse.mk r.success r.query r.count r.results r.sources
        r.pipeline_stats r.error) := by
  refine ⟨?_, ?_, ?_, ?_, ?_, ?_, fun _ => rfl⟩
  · simp [getTweetsParams, baseParams]
  · simp [getTweetsParams, baseParams]
  · simp [getTweetsParams, baseParams]
  · simp [getTweetsParams, baseParams]
  · constructor
    · rintro ⟨v, hv⟩
      simp only [getTweetsParams] at hv
      rcases List.mem_append.mp hv with h1 | h2
      · rcases List.mem_append.mp h1 with hb | hi
        · exact absurd hb
            (include_key_not_in_base query count top_k fetch_limit v)
        · rcases inc with _ | l
          · simp [includeParam] at hi
          · by_cases hl : 0 < l.length
            · refine ⟨l, rfl, ?_⟩
              intro hnil
              rw [hnil] at hl
              simp at hl
            · simp [includeParam, hl] at hi
      · exact absurd h2 (include_key_not_in_excludeParam exc v)
    · rintro ⟨l, rfl, hne⟩
      refine ⟨ParamValue.strList l, ?_⟩
      have hl : 0 < l.length := List.length_pos.mpr hne
      simp only [getTweetsParams]
      refine List.mem_append.mpr (Or.inl (List.mem_append.mpr (Or.inr ?_)))
      simp [includeParam, hl]
  · constructor
    · rintro ⟨v, hv⟩
      simp only [getTweetsParams] at hv
      rcases List.mem_append.mp hv with h1 | h2
      · rcases List.mem_append.mp h1 with hb | hi
        · exact absurd hb
            (exclude_key_not_in_base query count top_k fetch_limit v)
        · exact absurd hi (exclude_key_not_in_includeParam inc v)
      · rcases exc with _ | l
        · simp [excludeParam] at h2
        · by_cases hl : 0 < l.length
          · refine ⟨l, rfl, ?_⟩
            intro hnil
            rw [hnil] at hl
            simp at hl
          · simp [excludeParam, hl] at h2
    · rintro ⟨l, rfl, hne⟩
      refine ⟨ParamValue.strList l, ?_⟩
      have hl : 0 < l.length := List.length_pos.mpr hne
      simp only [getTweetsParams]
      refine List.mem_append.mpr (Or.inr ?_)
      simp [excludeParam, hl]

/-- C6: cleanup twice in succession for the same scope — the second
confirmed call reports zero deleted files and zero deleted vectors,
with no error in either half, and the counts are non-negative.  Proved
against the spec-modelled engine. -/
theorem c6_cleanup_idempotent (scope : Scope) (ts1 ts2 : String)
    (st : EngineState) :
    ∃ resp2 : CleanupResponse,
      (cleanup scope (some true) ts2
          (cleanup scope (some true) ts1 st).2).1 = Except.ok resp2 ∧
      resp2.folder_cleanup.deleted_count = 0 ∧
      resp2.pinecone_cleanup.vectors_deleted = 0 ∧
      resp2.folder_cleanup.errors = [] ∧
      resp2.pinecone_cleanup.error = none ∧
      resp2.success = true ∧
      0 ≤ resp2.folder_cleanup.deleted_count ∧
      0 ≤ resp2.pinecone_cleanup.vectors_deleted := by
  have hf := filter_not_filter_self st.files (fun f => scopeMatches scope f.2)
  have hv := filter_not_filter_self st.vectors
    (fun v => scopeMatches scope v.2)
  refine ⟨(cleanupRun scope ts2 (cleanup scope (some true) ts1 st).2).1,
    by simp [cleanup], ?_, ?_, ?_, ?_, ?_, ?_, ?_⟩
  · simp [cleanup, cleanupRun, hf]
  · simp [cleanup, cleanupRun, hv]
  · simp [cleanup, cleanupRun]
  · simp [cleanup, cleanupRun]
  · simp [cleanup, cleanupRun]
  · simp [cleanup, cleanupRun, hf]
  · simp [cleanup, cleanupRun, hv]

/-- C7: a cleanup request whose confirm flag is false or absent is
rejected with `CleanupNotConfirmed` and leaves the engine state — its
file list and its vector list, hence all counts — exactly as before.
Proved against the spec-modelled engine. -/
theorem c7_confirm_gate (scope : Scope) (confirm : Option Bool)
    (ts : String) (st : EngineState) (h : confirm ≠ some true) :
    cleanup scope confirm ts st =
      (Except.error CleanupError.CleanupNotConfirmed, st) ∧
    (cleanup scope confirm ts st).2.files.length = st.files.length ∧
    (cleanup scope confirm ts st).2.vectors.length = st.vectors.length := by
  have heq : cleanup scope confirm ts st =
      (Except.error CleanupError.CleanupNotConfirmed, st) := by
    simp [cleanup, h]
  exact ⟨heq, by rw [heq], by rw [heq]⟩

/-- C7 witness: the gate theorem applied at scope all with an absent
confirm flag and a concrete non-empty state. -/
theorem c7_witness :
    cleanup Scope.all none "t"
        (EngineState.mk [("f", "s")] [("v", "s")]) =
      (Except.error CleanupError.CleanupNotConfirmed,
        EngineState.mk [("f", "s")] [("v", "s")]) :=
  (c7_confirm_gate Scope.all none "t"
    (EngineState.mk [("f", "s")] [("v", "s")]) (by decide)).1

/-- C9: in `Tweets.ngOnInit`, `count`, `top_k` and `fetch_limit`
resolve to 3, 5 and 10 whenever the query parameter is absent,
non-numeric (`parseInt` yields NaN) or parses to 0; in particular an
explicit `count=0` produces 3, never 0. -/
theorem c9_default_resolution (p : TweetsQueryParams) :
    ((p.count = none ∨ parseIntParam p.count = none ∨
        parseIntParam p.count = some 0) → resolvedCount p = 3) ∧
    ((p.top_k = none ∨ parseIntParam p.top_k = none ∨
        parseIntParam p.top_k = some 0) → resolvedTopK p = 5) ∧
    ((p.fetch_limit = none ∨ parseIntParam p.fetch_limit = none ∨
        parseIntParam p.fetch_limit = some 0) → resolvedFetchLimit p = 10) ∧
    (p.count = some "0" → resolvedCount p = 3) := by
  have h0 : jsParseInt "0" = some 0 := by decide
  refine ⟨?_, ?_, ?_, ?_⟩
  · rintro (h | h | h)
    · simp [resolvedCount, parseIntParam, h, numOr]
    · simp [resolvedCount, h, numOr]
    · simp [resolvedCount, h, numOr]
  · rintro (h | h | h)
    · simp [resolvedTopK, parseIntParam, h, numOr]
    · simp [resolvedTopK, h, numOr]
    · simp [resolvedTopK, h, numOr]
  · rintro (h | h | h)
    · simp [resolvedFetchLimit, parseIntParam, h, numOr]
    · simp [resolvedFetchLimit, h, numOr]
    · simp [resolvedFetchLimit, h, numOr]
  · intro h
    simp [resolvedCount, parseIntParam, h, h0, numOr]

/-- C9 witness: the resolution theorem applied at a concrete parameter
map with a missing count, a non-numeric top_k and a zero fetch_limit. -/
theorem c9_witness :
    resolvedCount (TweetsQueryParams.mk none none (some "abc") (some "0")) = 3 ∧
    resolvedTopK (TweetsQueryParams.mk none none (some "abc") (some "0")) = 5 ∧
    resolvedFetchLimit
      (TweetsQueryParams.mk none none (some "abc") (some "0")) = 10 :=
  ⟨(c9_default_resolution _).1 (Or.inl rfl),
   (c9_default_resolution _).2.1 (Or.inr (Or.inl (by decide))),
   (c9_default_resolution _).2.2.1 (Or.inr (Or.inr (by decide)))⟩

/-- C10: under any sequence of add/remove/clear operations from the
initial state, the two selected lists stay duplicate-free (adding an
already-selected source is a no-op), and the filtered option lists
never contain a source already present in either selected list. -/
theorem c10_filters_invariants (ops : List FilterOp) :
    (applyOps ops).selectedInclude.Nodup ∧
    (applyOps ops).selectedExclude.Nodup ∧
    (∀ media search s,
      s ∈ filteredIncludeSources media (applyOps ops) search →
      s ∉ (applyOps ops).selectedInclude ∧
      s ∉ (applyOps ops).selectedExclude) ∧
    (∀ media search s,
      s ∈ filteredExcludeSources media (applyOps ops) search →
      s ∉ (applyOps ops).selectedInclude ∧
      s ∉ (applyOps ops).selectedExclude) := by
  obtain ⟨h1, h2⟩ := foldl_applyOp_nodup ops initialFilters
    (by simp [initialFilters]) (by simp [initialFilters])
  refine ⟨h1, h2, ?_, ?_⟩
  · intro media search s hmem
    obtain ⟨_, hpred⟩ := List.mem_filter.mp hmem
    simp only [Bool.and_eq_true, Bool.not_eq_true'] at hpred
    constructor
    · intro hin
      have hc := hpred.1.1
      have hm : (applyOps ops).selectedInclude.contains s = true := by
        simpa using hin
      rw [hm] at hc
      exact Bool.noConfusion hc
    · intro hin
      have hc := hpred.1.2
      have hm : (applyOps ops).selectedExclude.contains s = true := by
        simpa using hin
      rw [hm] at hc
      exact Bool.noConfusion hc
  · intro media search s hmem
    obtain ⟨_, hpred⟩ := List.mem_filter.mp hmem
    simp only [Bool.and_eq_true, Bool.not_eq_true'] at hpred
    constructor
    · intro hin
      have hc := hpred.1.2
      have hm : (applyOps ops).selectedInclude.contains s = true := by
        simpa using hin
      rw [hm] at hc
      exact Bool.noConfusion hc
    · intro hin
      have hc := hpred.1.1
      have hm : (applyOps ops).selectedExclude.contains s = true := by
        simpa using hin
      rw [hm] at hc
      exact Bool.noConfusion hc

/-- C10 witness: the invariants theorem applied at a concrete operation
sequence, concrete media list and concrete filtered member. -/
theorem c10_witness :
    ("b" ∈ filteredIncludeSources ["a", "b"]
      (applyOps [FilterOp.addInclude "a"]) "") ∧
    "b" ∉ (applyOps [FilterOp.addInclude "a"]).selectedInclude ∧
    (applyOps [FilterOp.addInclude "a"]).selectedInclude.Nodup :=
  ⟨by decide,
   ((c10_filters_invariants [FilterOp.addInclude "a"]).2.2.1
     ["a", "b"] "" "b" (by decide)).1,
   (c10_filters_invariants [FilterOp.addInclude "a"]).1⟩

end RagPipeline
